import Mathlib

/-!
# macos-proc-exporter: the collection and aggregation engine

A shallow embedding of `main.go` (`findParent` and `metrics.Collect`) together with
the properties of the ancestor walk and of the per-group aggregation.

Modelling decisions.

* The operating system is a process table `Host`: every gopsutil call
  (`process.Processes`, `Process.Name`, `Process.Parent`, `Process.Times`,
  `Process.MemoryPercent`) is a function of the process id that either yields a value or
  an error. The table is fixed for the duration of one scan.
* A process handle `*process.Process` is identified with its process id.
* `float64` and `float32` values are rationals: every sum is exact.
* The loop of `findParent` has no bound in the source. The embedding takes a number of
  allowed iterations (`fuel`) and answers `none` when that number is used up before the
  loop returns. The parent relation of a `Host` is arbitrary and may contain cycles.
* `map[resultKey]result` is an association list without duplicate keys. The order in
  which Go ranges over the map is unspecified, so `Collect` takes it as a parameter.
* A Go `string` is a sequence of bytes, not necessarily valid UTF-8. Process names are
  such strings. Metric names and error messages are Lean strings.
* `log.Fatal` prints and calls `os.Exit(1)`: the outcome `Outcome.exited 1`.
* `prometheus.MustNewConstMetric` panics when `NewConstMetric` reports an error, which
  it does for a label value that is not valid UTF-8: the outcome `Outcome.panicked`,
  which carries the metrics already sent on the channel.
* Console output (`fmt.Println`, `log.Println`) is not modelled.
-/

namespace MacosProcExporter

/-! ## Data model -/

/-- Process id (`int32` in gopsutil); a process handle is identified with it. -/
abbrev Pid := Int

/-- A Go `error`, identified with its message. -/
abbrev Err := String

/-- A byte. -/
abbrev Byte := Fin 256

/-- A Go `string`: a sequence of bytes. -/
abbrev GoString := List Byte

/-- The Go string of a string literal: its UTF-8 encoding. -/
def goString (s : String) : GoString := s.toUTF8.data.toList.map fun b => b.val

/-- The byte `b` lies between `lo` and `hi`, both included. -/
def inRange (lo hi : Nat) (b : Byte) : Bool := decide (lo ≤ b.val) && decide (b.val ≤ hi)

/-- The function `utf8.ValidString` of the Go standard library, which
`prometheus.NewConstMetric` applies to every label value: the bytes are a sequence of
well-formed UTF-8 encodings (one byte below 0x80; a lead byte 0xC2 to 0xDF, 0xE0 to 0xEF
or 0xF0 to 0xF4 followed by one, two or three continuation bytes 0x80 to 0xBF, where the
first continuation byte starts at 0xA0 after 0xE0 and at 0x90 after 0xF0, and ends at
0x9F after 0xED and at 0x8F after 0xF4). -/
def ValidString : GoString → Bool
  | [] => true
  | b0 :: rest =>
    if b0.val < 0x80 then ValidString rest
    else if inRange 0xC2 0xDF b0 then
      match rest with
      | b1 :: rest1 => inRange 0x80 0xBF b1 && ValidString rest1
      | _ => false
    else if inRange 0xE0 0xEF b0 then
      match rest with
      | b1 :: b2 :: rest2 =>
        inRange (if b0.val = 0xE0 then 0xA0 else 0x80)
            (if b0.val = 0xED then 0x9F else 0xBF) b1 &&
          inRange 0x80 0xBF b2 && ValidString rest2
      | _ => false
    else if inRange 0xF0 0xF4 b0 then
      match rest with
      | b1 :: b2 :: b3 :: rest3 =>
        inRange (if b0.val = 0xF0 then 0x90 else 0x80)
            (if b0.val = 0xF4 then 0x8F else 0xBF) b1 &&
          inRange 0x80 0xBF b2 && inRange 0x80 0xBF b3 && ValidString rest3
      | _ => false
    else false

deriving instance DecidableEq for Except

/-- The two fields of `cpu.TimesStat` that `Collect` reads. -/
structure TimesStat where
  User : ℚ
  System : ℚ
deriving DecidableEq

/-- The process table seen by one scan: the result of each gopsutil call. -/
structure Host where
  /-- Result of `process.Processes()`. -/
  Processes : Except Err (List Pid)
  /-- Result of `proc.Name()`. -/
  Name : Pid → Except Err GoString
  /-- Result of `proc.Parent()`; `ok none` is the `nil` handle with no error. -/
  Parent : Pid → Except Err (Option Pid)
  /-- Result of `proc.Times()`. -/
  Times : Pid → Except Err TimesStat
  /-- Result of `proc.MemoryPercent()`. -/
  MemoryPercent : Pid → Except Err ℚ

/-- The local type `resultKey` of `Collect`. -/
structure resultKey where
  name : GoString
  parent : GoString
deriving DecidableEq

/-- The local type `result` of `Collect`; it embeds `resultKey`. -/
structure result extends resultKey where
  cpuTotal : ℚ
  mem : ℚ
deriving DecidableEq

/-- The Go type `map[resultKey]result`. -/
abbrev ResultMap := List (resultKey × result)

/-- Map read `results[key]` in its two-valued form. -/
def ResultMap.get : ResultMap → resultKey → Option result
  | [], _ => none
  | (k, v) :: rest, key => if k = key then some v else ResultMap.get rest key

/-- Map write `results[key] = v`. -/
def ResultMap.set : ResultMap → resultKey → result → ResultMap
  | [], key, v => [(key, v)]
  | (k, w) :: rest, key, v =>
    if k = key then (key, v) :: rest else (k, w) :: ResultMap.set rest key v

/-- The zero value `result{}` that a Go map read yields for an absent key. -/
def result.zero : result := ⟨⟨[], []⟩, 0, 0⟩

/-! ## `findParent` (main.go, lines 131 to 157) -/

/-- The function `findParent`, as a loop of at most `fuel` iterations. The Go result pair
`(string, error)` is the pair `(name, none)` or `([], some err)`, where `[]` is the empty
string; `none` means that the loop has not returned within `fuel` iterations. -/
def findParent (h : Host) : Nat → GoString → Pid → Option (GoString × Option Err)
  | 0, _, _ => none
  | fuel + 1, name, proc =>
    match h.Parent proc with
    | .error err => some ([], some err)
    | .ok none => some (name, none)
    | .ok (some parent) =>
      match h.Name parent with
      | .error err => some ([], some err)
      | .ok parentName =>
        if parentName = goString "launchd" then some (name, none)
        else findParent h fuel parentName parent

/-! ## `metrics.Collect` (main.go, lines 32 to 129) -/

/-- One iteration of the loop over `procs` (lines 55 to 104): the map after the
iteration, or `none` when `findParent` does not return within `fuel` iterations. -/
def collectBody (h : Host) (fuel : Nat) (results : ResultMap) (proc : Pid) :
    Option ResultMap :=
  match h.Name proc with
  | .error _ => some results
  | .ok name =>
    match findParent h fuel name proc with
    | none => none
    | some (_, some _) => some results
    | some (parentName, none) =>
      let key : resultKey := ⟨name, parentName⟩
      let results : ResultMap :=
        match results.get key with
        | some _ => results
        | none => results.set key ⟨key, 0, 0⟩
      let r : result := (results.get key).getD result.zero
      match h.Times proc with
      | .error _ => some results
      | .ok times =>
        let totalCPU := times.User + times.System
        let r : result := { r with cpuTotal := r.cpuTotal + totalCPU }
        match h.MemoryPercent proc with
        | .error _ => some results
        | .ok mem =>
          let r : result := { r with mem := r.mem + mem }
          some (results.set key r)

/-- The loop `for _, proc := range procs` over a map that starts as `results`. -/
def collectLoop (h : Host) (fuel : Nat) : ResultMap → List Pid → Option ResultMap
  | results, [] => some results
  | results, proc :: rest =>
    match collectBody h fuel results proc with
    | none => none
    | some results => collectLoop h fuel results rest

/-- The value type argument of `prometheus.MustNewConstMetric`. -/
inductive ValueType where
  | CounterValue
  | GaugeValue
deriving DecidableEq

/-- A constant metric sent on the channel: descriptor name, value type, value and the
values of the labels `name` and `parent`. -/
structure Metric where
  fqName : String
  valueType : ValueType
  value : ℚ
  labelValues : List GoString
deriving DecidableEq

/-- The function `prometheus.NewConstMetric` for a descriptor with the given name and
variable labels: an error (`none`) when the number of label values is not the number of
labels or when a label value is not valid UTF-8. -/
def NewConstMetric (fqName : String) (variableLabels : List String) (valueType : ValueType)
    (value : ℚ) (labelValues : List GoString) : Option Metric :=
  if labelValues.length = variableLabels.length ∧ labelValues.all ValidString = true then
    some ⟨fqName, valueType, value, labelValues⟩
  else none

/-- How a call of `Collect` ends: the serving process exits with a status code
(`log.Fatal`), or `MustNewConstMetric` panics after the listed metrics were sent, or the
call returns after sending the listed metrics. -/
inductive Outcome where
  | exited (code : Nat)
  | panicked (sent : List Metric)
  | returned (sent : List Metric)
deriving DecidableEq

/-- The second loop of `Collect` (lines 111 to 126), started with the metrics `sent` so
far on the channel: two metrics per result, and a panic when `MustNewConstMetric` gets an
error from `NewConstMetric`. -/
def emitMetrics : List Metric → List result → Outcome
  | sent, [] => .returned sent
  | sent, r :: rest =>
    match NewConstMetric "mac_process_cpu_usage_total" ["name", "parent"] .CounterValue
        r.cpuTotal [r.name, r.parent] with
    | none => .panicked sent
    | some cpu =>
      match NewConstMetric "mac_process_mem_usage" ["name", "parent"] .GaugeValue
          r.mem [r.name, r.parent] with
      | none => .panicked (sent ++ [cpu])
      | some mem => emitMetrics (sent ++ [cpu, mem]) rest

/-- The method `Collect`. `rangeOrder` is the order in which `range results` visits the
values of the map (line 107). The answer is `none` when a `findParent` call does not
return within `fuel` iterations. -/
def Collect (h : Host) (fuel : Nat) (rangeOrder : ResultMap → List result) :
    Option Outcome :=
  match h.Processes with
  | .error _ => some (.exited 1)
  | .ok procs =>
    match collectLoop h fuel [] procs with
    | none => none
    | some results => some (emitMetrics [] (rangeOrder results))

/-! ## Process tables used as concrete inputs -/

/-- The table `node (4) -> bash (3) -> Terminal (2) -> launchd (1)`, where launchd has no
parent and every other process id is gone. -/
def sessionHost : Host where
  Processes := .ok [1, 2, 3, 4]
  Name := fun p =>
    if p = 1 then .ok (goString "launchd") else if p = 2 then .ok (goString "Terminal")
    else if p = 3 then .ok (goString "bash") else if p = 4 then .ok (goString "node") else .error "gone"
  Parent := fun p =>
    if p = 1 then .ok none else if p = 2 then .ok (some 1)
    else if p = 3 then .ok (some 2) else if p = 4 then .ok (some 3) else .error "gone"
  Times := fun p => if 1 ≤ p ∧ p ≤ 4 then .ok ⟨1, 2⟩ else .error "gone"
  MemoryPercent := fun p => if 1 ≤ p ∧ p ≤ 4 then .ok 5 else .error "gone"

/-! ## Specification-side vocabulary for the ancestor walk -/

/-- The ancestor chain of `p` is `chain`: each element is the parent of the one before
(the first is the parent of `p`), and the parent lookup of the last one (of `p` when the
chain is empty) fails or reports no parent. -/
def AncestorChain (h : Host) : Pid → List Pid → Prop
  | p, [] =>
    match h.Parent p with
    | .ok (some _) => False
    | _ => True
  | p, q :: rest => h.Parent p = .ok (some q) ∧ AncestorChain h q rest

/-- Below `p` sits the chain of ancestors `chain`, given with their names, none of them
named launchd, and the parent of the last one (of `p` when the chain is empty) is `s`,
which is named launchd. Every lookup and name read involved succeeds. -/
def SupervisedChain (h : Host) : Pid → List (Pid × GoString) → Pid → Prop
  | p, [], s => h.Parent p = .ok (some s) ∧ h.Name s = .ok (goString "launchd")
  | p, (q, nq) :: rest, s =>
    h.Parent p = .ok (some q) ∧ h.Name q = .ok nq ∧ nq ≠ (goString "launchd") ∧
      SupervisedChain h q rest s

/-- The walk of `findParent` that starts at `p` moves up to `q`: every step on the way
found a parent whose name was read and is not launchd. -/
inductive Climbs (h : Host) : Pid → Pid → Prop where
  | here (p : Pid) : Climbs h p p
  | up {p q r : Pid} {nm : GoString} : h.Parent p = .ok (some q) → h.Name q = .ok nm →
      nm ≠ (goString "launchd") → Climbs h q r → Climbs h p r

/-- Walking upward from `p`, the first thing that happens is a failure with error `e`:
a parent lookup fails, or the name read of a parent fails. -/
def WalkFails (h : Host) (p : Pid) (e : Err) : Prop :=
  ∃ q, Climbs h p q ∧
    (h.Parent q = .error e ∨ ∃ q', h.Parent q = .ok (some q') ∧ h.Name q' = .error e)

/-- Walking upward from `p`, the walk reaches a process with no parent or a process whose
parent is named launchd, and nothing fails before. -/
def WalkStops (h : Host) (p : Pid) : Prop :=
  ∃ q, Climbs h p q ∧
    (h.Parent q = .ok none ∨ ∃ q', h.Parent q = .ok (some q') ∧ h.Name q' = .ok (goString "launchd"))

instance AncestorChain.decide (h : Host) : ∀ (p : Pid) (chain : List Pid),
    Decidable (AncestorChain h p chain)
  | p, [] => by
    unfold AncestorChain
    split <;> infer_instance
  | p, q :: rest =>
    have := AncestorChain.decide h q rest
    by unfold AncestorChain; infer_instance

instance SupervisedChain.decide (h : Host) : ∀ (p : Pid) (chain : List (Pid × GoString))
    (s : Pid), Decidable (SupervisedChain h p chain s)
  | p, [], s => by unfold SupervisedChain; infer_instance
  | p, (q, nq) :: rest, s =>
    have := SupervisedChain.decide h q rest s
    by unfold SupervisedChain; infer_instance

/-- A table with a cycle: process 7, named spin, is its own parent. -/
def cyclicHost : Host where
  Processes := .ok [7]
  Name := fun _ => .ok (goString "spin")
  Parent := fun _ => .ok (some 7)
  Times := fun _ => .ok ⟨0, 0⟩
  MemoryPercent := fun _ => .ok 0

/-! ## Specification-side vocabulary for the aggregation -/

/-- The group of a process: its own name and its findParent result, when the name read
succeeds and findParent returns a name. -/
def groupKey (h : Host) (fuel : Nat) (p : Pid) : Option resultKey :=
  match h.Name p with
  | .error _ => none
  | .ok n =>
    match findParent h fuel n p with
    | some (a, none) => some ⟨n, a⟩
    | _ => none

/-- What a process adds to its group: User plus System and the memory percent, when both
the CPU times read and the memory percent read succeed. -/
def contribution (h : Host) (p : Pid) : Option (ℚ × ℚ) :=
  match h.Times p, h.MemoryPercent p with
  | .ok t, .ok m => some (t.User + t.System, m)
  | _, _ => none

/-- The CPU seconds a process adds to the group `key`. -/
def cpuShare (h : Host) (fuel : Nat) (key : resultKey) (p : Pid) : ℚ :=
  if groupKey h fuel p = some key then
    match contribution h p with
    | some (c, _) => c
    | none => 0
  else 0

/-- The memory percent a process adds to the group `key`. -/
def memShare (h : Host) (fuel : Nat) (key : resultKey) (p : Pid) : ℚ :=
  if groupKey h fuel p = some key then
    match contribution h p with
    | some (_, m) => m
    | none => 0
  else 0

/-- Some process of the list has the group `key`. -/
def touched (h : Host) (fuel : Nat) (key : resultKey) (procs : List Pid) : Bool :=
  procs.any fun p => decide (groupKey h fuel p = some key)

/-- The result `r` with `c` added to its CPU total and `m` to its memory total. -/
def addTotals (r : result) (c m : ℚ) : result :=
  ⟨r.toresultKey, r.cpuTotal + c, r.mem + m⟩

/-- Every process of the list has a finite ancestor chain, shorter than `fuel`. -/
def FiniteChains (h : Host) (fuel : Nat) (procs : List Pid) : Prop :=
  ∀ p ∈ procs, ∃ chain, AncestorChain h p chain ∧ chain.length < fuel

/-- The processes of the list whose group is `key`. -/
def members (h : Host) (fuel : Nat) (key : resultKey) (procs : List Pid) : List Pid :=
  procs.filter fun p => decide (groupKey h fuel p = some key)

/-- The processes of the list that are counted in the group `key`: their group is `key`
and both their CPU times read and their memory percent read succeed. -/
def counted (h : Host) (fuel : Nat) (key : resultKey) (procs : List Pid) : List Pid :=
  procs.filter fun p =>
    decide (groupKey h fuel p = some key) && (contribution h p).isSome

/-- User plus System CPU time of a process (zero when the read fails). -/
def cpuSeconds (h : Host) (p : Pid) : ℚ :=
  match h.Times p with
  | .ok t => t.User + t.System
  | .error _ => 0

/-- Memory percent of a process (zero when the read fails). -/
def memoryPercent (h : Host) (p : Pid) : ℚ :=
  match h.MemoryPercent p with
  | .ok m => m
  | .error _ => 0

/-- A table with two sessions and unreadable fields:
`node (4) -> bash (3) -> Terminal (2) -> launchd (1)` and `node (6) -> iTerm2 (5) ->
launchd (1)`; `zsh (7)` and `fish (8)` are children of Terminal, the memory percent of 7
and the CPU times of 8 cannot be read; the parent of `orphan (9)` cannot be looked up;
every other process id is gone. -/
def mixedHost : Host where
  Processes := .ok [1, 2, 3, 4, 5, 6, 7, 8, 9]
  Name := fun p =>
    if p = 1 then .ok (goString "launchd") else if p = 2 then .ok (goString "Terminal")
    else if p = 3 then .ok (goString "bash") else if p = 4 then .ok (goString "node")
    else if p = 5 then .ok (goString "iTerm2") else if p = 6 then .ok (goString "node")
    else if p = 7 then .ok (goString "zsh") else if p = 8 then .ok (goString "fish")
    else if p = 9 then .ok (goString "orphan") else .error "gone"
  Parent := fun p =>
    if p = 1 then .ok none else if p = 2 then .ok (some 1)
    else if p = 3 then .ok (some 2) else if p = 4 then .ok (some 3)
    else if p = 5 then .ok (some 1) else if p = 6 then .ok (some 5)
    else if p = 7 then .ok (some 2) else if p = 8 then .ok (some 2)
    else .error "gone"
  Times := fun p => if p = 8 then .error "denied" else .ok ⟨1, 2⟩
  MemoryPercent := fun p => if p = 7 then .error "denied" else .ok 5

/-- A table whose process listing fails. -/
def downHost : Host where
  Processes := .error "sysctl failed"
  Name := fun _ => .error "gone"
  Parent := fun _ => .error "gone"
  Times := fun _ => .error "gone"
  MemoryPercent := fun _ => .error "gone"

/-- The map values in the order of the association list. -/
def inOrder (m : ResultMap) : List result := m.map Prod.snd

/-- The map values in the reverse order of the association list. -/
def inReverse (m : ResultMap) : List result := (m.map Prod.snd).reverse

/-! ## Specification-side vocabulary for the emission -/

/-- The CPU metric that `Collect` makes of a result. -/
def cpuMetric (r : result) : Metric :=
  ⟨"mac_process_cpu_usage_total", .CounterValue, r.cpuTotal, [r.name, r.parent]⟩

/-- The memory metric that `Collect` makes of a result. -/
def memMetric (r : result) : Metric :=
  ⟨"mac_process_mem_usage", .GaugeValue, r.mem, [r.name, r.parent]⟩

/-- The two metrics of a result, in the order in which they are sent. -/
def metricsOf (r : result) : List Metric := [cpuMetric r, memMetric r]

/-- Both labels of a result are valid UTF-8. -/
def validLabels (r : result) : Bool := ValidString r.name && ValidString r.parent

/-- The own name and the resolved ancestor name of every listed process that has a group
are valid UTF-8. -/
def validGroups (h : Host) (fuel : Nat) (procs : List Pid) : Bool :=
  procs.all fun p =>
    match groupKey h fuel p with
    | some k => ValidString k.name && ValidString k.parent
    | none => true

/-- The metrics sent on the channel before the call of `Collect` ended. -/
def Outcome.sent : Outcome → List Metric
  | .exited _ => []
  | .panicked sent => sent
  | .returned sent => sent

/-- A table with a process name that is not valid UTF-8: process 10, a child of launchd,
is named by the single byte 0xFF; the processes 4 and 6 are the two `node` processes of
`mixedHost`. -/
def rawNameHost : Host where
  Processes := .ok [10, 4, 6]
  Name := fun p => if p = 10 then .ok [0xFF] else mixedHost.Name p
  Parent := fun p => if p = 10 then .ok (some 1) else mixedHost.Parent p
  Times := mixedHost.Times
  MemoryPercent := mixedHost.MemoryPercent

/-! ## Go strings -/

/-- The literal of the supervisor name is the seven ASCII bytes of the word. -/
theorem goString_launchd : goString "launchd" = [108, 97, 117, 110, 99, 104, 100] := by
  decide

/-- The validity test on the boundaries of the well-formed byte ranges. -/
theorem ValidString_examples :
    ValidString (goString "launchd") = true ∧
    ValidString [0xC2, 0x80] = true ∧ ValidString [0xDF, 0xBF] = true ∧
    ValidString [0xE0, 0xA0, 0x80] = true ∧ ValidString [0xED, 0x9F, 0xBF] = true ∧
    ValidString [0xEE, 0x80, 0x80] = true ∧ ValidString [0xF0, 0x90, 0x80, 0x80] = true ∧
    ValidString [0xF4, 0x8F, 0xBF, 0xBF] = true ∧
    ValidString [0x80] = false ∧ ValidString [0xC0, 0x80] = false ∧
    ValidString [0xC1, 0xBF] = false ∧ ValidString [0xE0, 0x9F, 0xBF] = false ∧
    ValidString [0xED, 0xA0, 0x80] = false ∧ ValidString [0xF0, 0x8F, 0xBF, 0xBF] = false ∧
    ValidString [0xF4, 0x90, 0x80, 0x80] = false ∧ ValidString [0xF5, 0x80, 0x80, 0x80] = false ∧
    ValidString [0xE2, 0x82] = false ∧ ValidString [0x61, 0xFF] = false := by
  decide

/-! ## Properties of `findParent` -/

theorem findParent_mono (h : Host) : ∀ (fuel : Nat) (name : GoString) (proc : Pid)
    (r : GoString × Option Err), findParent h fuel name proc = some r →
    ∀ fuel', fuel ≤ fuel' → findParent h fuel' name proc = some r := by
  intro fuel
  induction fuel with
  | zero => intro name proc r hr; simp [findParent] at hr
  | succ f ih =>
    intro name proc r hr fuel' hle
    obtain ⟨f', rfl⟩ : ∃ f', fuel' = f' + 1 := ⟨fuel' - 1, by omega⟩
    unfold findParent at hr ⊢
    cases hp : h.Parent proc with
    | error e => simpa [hp] using hr
    | ok op =>
      cases op with
      | none => simpa [hp] using hr
      | some q =>
        simp only [hp] at hr ⊢
        cases hn : h.Name q with
        | error e => simpa [hn] using hr
        | ok nm =>
          simp only [hn] at hr ⊢
          by_cases hl : nm = goString "launchd"
          · simpa [hl] using hr
          · simp only [hl, if_false] at hr ⊢
            exact ih nm q r hr f' (by omega)

theorem findParent_of_ancestorChain (h : Host) : ∀ (chain : List Pid) (p : Pid)
    (name : GoString), AncestorChain h p chain →
    ∃ r, findParent h (chain.length + 1) name p = some r := by
  intro chain
  induction chain with
  | nil =>
    intro p name hc
    unfold AncestorChain at hc
    unfold findParent
    cases hp : h.Parent p with
    | error e => exact ⟨_, rfl⟩
    | ok op =>
      cases op with
      | none => exact ⟨_, rfl⟩
      | some q => simp [hp] at hc
  | cons q rest ih =>
    intro p name hc
    obtain ⟨hp, hrest⟩ := hc
    unfold findParent
    simp only [hp, List.length_cons]
    cases hn : h.Name q with
    | error e => exact ⟨_, rfl⟩
    | ok nm =>
      by_cases hl : nm = goString "launchd"
      · exact ⟨(name, none), by simp [hl]⟩
      · simp only [hl, if_false]
        exact ih q nm hrest

/-- On a table whose parent relation is well-founded every process has a finite ancestor
chain. -/
theorem exists_ancestorChain_of_wellFounded (h : Host)
    (hwf : WellFounded fun q p : Pid => h.Parent p = .ok (some q)) (p : Pid) :
    ∃ chain, AncestorChain h p chain := by
  induction p using hwf.induction with
  | _ p ih =>
    cases hp : h.Parent p with
    | error e => exact ⟨[], by simp [AncestorChain, hp]⟩
    | ok op =>
      cases op with
      | none => exact ⟨[], by simp [AncestorChain, hp]⟩
      | some q =>
        obtain ⟨chain, hc⟩ := ih q hp
        exact ⟨q :: chain, hp, hc⟩

theorem findParent_sound (h : Host) : ∀ (fuel : Nat) (name : GoString) (proc : Pid)
    (r : GoString × Option Err), findParent h fuel name proc = some r →
    (∃ e, r = ([], some e) ∧ WalkFails h proc e) ∨
      (∃ nm, r = (nm, none) ∧ WalkStops h proc) := by
  intro fuel
  induction fuel with
  | zero => intro name proc r hr; simp [findParent] at hr
  | succ f ih =>
    intro name proc r hr
    unfold findParent at hr
    cases hp : h.Parent proc with
    | error e =>
      simp only [hp, Option.some.injEq] at hr
      exact Or.inl ⟨e, hr.symm, proc, Climbs.here proc, Or.inl hp⟩
    | ok op =>
      cases op with
      | none =>
        simp only [hp, Option.some.injEq] at hr
        exact Or.inr ⟨name, hr.symm, proc, Climbs.here proc, Or.inl hp⟩
      | some q =>
        simp only [hp] at hr
        cases hn : h.Name q with
        | error e =>
          simp only [hn, Option.some.injEq] at hr
          exact Or.inl ⟨e, hr.symm, proc, Climbs.here proc, Or.inr ⟨q, hp, hn⟩⟩
        | ok nm =>
          simp only [hn] at hr
          by_cases hl : nm = goString "launchd"
          · simp only [hl, if_true, Option.some.injEq] at hr
            exact Or.inr ⟨name, hr.symm, proc, Climbs.here proc, Or.inr ⟨q, hp, hl ▸ hn⟩⟩
          · simp only [hl, if_false] at hr
            rcases ih nm q r hr with ⟨e, hre, t, hct, hft⟩ | ⟨nm', hre, t, hct, hst⟩
            · exact Or.inl ⟨e, hre, t, Climbs.up hp hn hl hct, hft⟩
            · exact Or.inr ⟨nm', hre, t, Climbs.up hp hn hl hct, hst⟩

theorem findParent_of_walkFails (h : Host) {p q : Pid} (hc : Climbs h p q) :
    ∀ (e : Err), (h.Parent q = .error e ∨
      ∃ q', h.Parent q = .ok (some q') ∧ h.Name q' = .error e) →
    ∀ (fuel : Nat) (name : GoString) (r : GoString × Option Err),
      findParent h fuel name p = some r → r = ([], some e) := by
  induction hc with
  | here p =>
    intro e hfail fuel name r hr
    cases fuel with
    | zero => simp [findParent] at hr
    | succ f =>
      unfold findParent at hr
      rcases hfail with hp | ⟨q', hp, hn⟩
      · simp only [hp, Option.some.injEq] at hr; exact hr.symm
      · simp only [hp, hn, Option.some.injEq] at hr; exact hr.symm
  | up hp hn hl _ ih =>
    intro e hfail fuel name r hr
    cases fuel with
    | zero => simp [findParent] at hr
    | succ f =>
      unfold findParent at hr
      simp only [hp, hn, hl, if_false] at hr
      exact ih e hfail f _ r hr

theorem findParent_of_walkStops (h : Host) {p q : Pid} (hc : Climbs h p q) :
    (h.Parent q = .ok none ∨
      ∃ q', h.Parent q = .ok (some q') ∧ h.Name q' = .ok (goString "launchd")) →
    ∀ (fuel : Nat) (name : GoString) (r : GoString × Option Err),
      findParent h fuel name p = some r → r.2 = none := by
  induction hc with
  | here p =>
    intro hstop fuel name r hr
    cases fuel with
    | zero => simp [findParent] at hr
    | succ f =>
      unfold findParent at hr
      rcases hstop with hp | ⟨q', hp, hn⟩
      · simp only [hp, Option.some.injEq] at hr; rw [← hr]
      · simp only [hp, hn, if_true, Option.some.injEq] at hr; rw [← hr]
  | up hp hn hl _ ih =>
    intro hstop fuel name r hr
    cases fuel with
    | zero => simp [findParent] at hr
    | succ f =>
      unfold findParent at hr
      simp only [hp, hn, hl, if_false] at hr
      exact ih hstop f _ r hr

/-- C2: when every lookup on the way succeeds, the ancestors of a process below the
supervisor are not named launchd and the process above them is named launchd, then
findParent returns the name of the top-most of these ancestors, and the own name of the
process when there is no such ancestor (its parent is launchd). -/
theorem findParent_below_supervisor (h : Host) (chain : List (Pid × GoString)) (p s : Pid)
    (n0 : GoString) (fuel : Nat) (hc : SupervisedChain h p chain s)
    (hf : chain.length + 1 ≤ fuel) :
    findParent h fuel n0 p = some ((chain.map Prod.snd).getLastD n0, none) := by
  induction chain generalizing p n0 fuel with
  | nil =>
    obtain ⟨f, rfl⟩ : ∃ f, fuel = f + 1 := ⟨fuel - 1, by simp at hf; omega⟩
    obtain ⟨hp, hn⟩ := hc
    unfold findParent
    simp [hp, hn]
  | cons qn rest ih =>
    obtain ⟨q, nq⟩ := qn
    obtain ⟨f, rfl⟩ : ∃ f, fuel = f + 1 := ⟨fuel - 1, by simp at hf; omega⟩
    obtain ⟨hp, hn, hl, hrest⟩ := hc
    unfold findParent
    simp only [hp, hn, hl, if_false, List.map_cons, List.getLastD_cons]
    exact ih q nq f hrest (by simp at hf; omega)

theorem findParent_below_supervisor_witness :
    findParent sessionHost 3 (goString "node") 4 = some (goString "Terminal", none) ∧
    findParent sessionHost 2 (goString "bash") 3 = some (goString "Terminal", none) ∧
    findParent sessionHost 1 (goString "Terminal") 2 = some (goString "Terminal", none) :=
  ⟨findParent_below_supervisor sessionHost [(3, goString "bash"), (2, goString "Terminal")] 4 1 (goString "node") 3
      (by decide) (by decide),
   findParent_below_supervisor sessionHost [(2, goString "Terminal")] 3 1 (goString "bash") 2
      (by decide) (by decide),
   findParent_below_supervisor sessionHost [] 2 1 (goString "Terminal") 1 (by decide) (by decide)⟩

/-- C3: when the parent lookup of a process succeeds and reports no parent, findParent
returns the own name unchanged with no error after one iteration, whatever that name is
and whatever the name reads of the table would answer (no name is read). -/
theorem findParent_no_parent (h : Host) (p : Pid) (n : GoString) (fuel : Nat)
    (hp : h.Parent p = .ok none) :
    findParent h (fuel + 1) n p = some (n, none) ∧
    ∀ names : Pid → Except Err GoString,
      findParent ⟨h.Processes, names, h.Parent, h.Times, h.MemoryPercent⟩ (fuel + 1) n p
        = some (n, none) := by
  constructor
  · unfold findParent; simp [hp]
  · intro names; unfold findParent; simp [hp]

theorem findParent_no_parent_witness :
    sessionHost.Parent 1 = .ok none ∧
    findParent sessionHost 1 (goString "launchd") 1 = some (goString "launchd", none) :=
  ⟨by decide, (findParent_no_parent sessionHost 1 (goString "launchd") 0 (by decide)).1⟩

/-- C9: for a process with a finite ancestor chain, findParent returns; it returns an
error exactly when, walking upward, a parent lookup or the name read of a parent fails
before the walk reaches a process with no parent or a parent named launchd; the error is
that first failure and the name returned with it is the empty string; and it returns no
error exactly when the walk reaches such a stop first. -/
theorem findParent_error_iff (h : Host) (p : Pid) (chain : List Pid) (n : GoString)
    (fuel : Nat) (hc : AncestorChain h p chain) (hf : chain.length + 1 ≤ fuel) :
    ∃ r, findParent h fuel n p = some r ∧
      (∀ e, r.2 = some e ↔ WalkFails h p e) ∧
      (∀ e, r.2 = some e → r.1 = []) ∧
      (r.2 = none ↔ WalkStops h p) := by
  obtain ⟨r, hr0⟩ := findParent_of_ancestorChain h chain p n hc
  have hr := findParent_mono h _ n p r hr0 fuel hf
  refine ⟨r, hr, ?_, ?_, ?_⟩
  · intro e
    constructor
    · intro he
      rcases findParent_sound h fuel n p r hr with ⟨e', hre, hw⟩ | ⟨nm, hre, _⟩
      · rw [hre] at he
        simp only [Option.some.injEq] at he
        exact he ▸ hw
      · rw [hre] at he; simp at he
    · rintro ⟨q, hcl, hfail⟩
      rw [findParent_of_walkFails h hcl e hfail fuel n r hr]
  · intro e he
    rcases findParent_sound h fuel n p r hr with ⟨e', hre, _⟩ | ⟨nm, hre, _⟩
    · rw [hre]
    · rw [hre] at he; simp at he
  · constructor
    · intro hnone
      rcases findParent_sound h fuel n p r hr with ⟨e', hre, _⟩ | ⟨nm, _, hs⟩
      · rw [hre] at hnone; simp at hnone
      · exact hs
    · rintro ⟨q, hcl, hstop⟩
      exact findParent_of_walkStops h hcl hstop fuel n r hr

theorem findParent_error_iff_witness :
    (WalkStops sessionHost 4 ∧ ∀ e, ¬ WalkFails sessionHost 4 e) ∧
    (WalkFails mixedHost 9 "gone" ∧ ¬ WalkStops mixedHost 9) := by
  obtain ⟨r, hr, hfail, _, hstop⟩ :=
    findParent_error_iff sessionHost 4 [3, 2, 1] (goString "node") 4 (by decide) (by decide)
  obtain ⟨r9, hr9, hfail9, _, hstop9⟩ :=
    findParent_error_iff mixedHost 9 [] (goString "orphan") 1 (by decide) (by decide)
  have e4 : findParent sessionHost 4 (goString "node") 4 = some (goString "Terminal", none) := by decide
  have e9 : findParent mixedHost 1 (goString "orphan") 9 = some ([], some "gone") := by decide
  rw [e4, Option.some.injEq] at hr
  rw [e9, Option.some.injEq] at hr9
  subst hr
  subst hr9
  refine ⟨⟨hstop.mp rfl, fun e he => ?_⟩, (hfail9 "gone").mp rfl, fun hs => ?_⟩
  · exact absurd ((hfail e).mpr he) (by simp)
  · exact absurd (hstop9.mpr hs) (by simp)

/-- C10: on a process whose ancestor chain is finite, findParent returns within as many
iterations as the chain is long plus one, and more iterations do not change the result.
The loop has no other bound: on a table where a process is its own parent and is not
named launchd it never returns. -/
theorem findParent_terminates (h : Host) (p : Pid) (chain : List Pid) (n : GoString)
    (hc : AncestorChain h p chain) :
    (∃ r, ∀ fuel, chain.length + 1 ≤ fuel → findParent h fuel n p = some r) ∧
    (∀ fuel name, findParent cyclicHost fuel name 7 = none) := by
  constructor
  · obtain ⟨r, hr⟩ := findParent_of_ancestorChain h chain p n hc
    exact ⟨r, fun fuel hf => findParent_mono h _ n p r hr fuel hf⟩
  · intro fuel
    induction fuel with
    | zero => intro name; rfl
    | succ f ih =>
      intro name
      unfold findParent
      simp only [cyclicHost]
      exact ih (goString "spin")

theorem findParent_terminates_witness :
    AncestorChain sessionHost 4 [3, 2, 1] ∧
    ((∃ r, ∀ fuel, 4 ≤ fuel → findParent sessionHost fuel (goString "node") 4 = some r) ∧
     (∀ fuel name, findParent cyclicHost fuel name 7 = none)) :=
  ⟨by decide, findParent_terminates sessionHost 4 [3, 2, 1] (goString "node") (by decide)⟩

/-! ## The map operations -/

theorem ResultMap.get_set (m : ResultMap) (key : resultKey) (v : result) (k : resultKey) :
    (m.set key v).get k = if key = k then some v else m.get k := by
  induction m with
  | nil => simp [ResultMap.set, ResultMap.get]
  | cons e rest ih =>
    obtain ⟨k0, w⟩ := e
    unfold ResultMap.set
    by_cases h0 : k0 = key
    · subst h0
      simp only [if_true, ResultMap.get]
      by_cases hk : k0 = k <;> simp [hk]
    · simp only [h0, if_false]
      by_cases h1 : k0 = k
      · subst h1
        have h2 : ¬ key = k0 := fun e => h0 e.symm
        simp [ResultMap.get, h2]
      · simp only [ResultMap.get, h1, if_false, ih]

theorem ResultMap.mem_keys_of_get (m : ResultMap) (k : resultKey) (r : result) :
    m.get k = some r → (k, r) ∈ m := by
  induction m with
  | nil => simp [ResultMap.get]
  | cons e rest ih =>
    obtain ⟨k0, w⟩ := e
    unfold ResultMap.get
    by_cases h0 : k0 = k
    · subst h0
      simp only [if_true, Option.some.injEq]
      intro hw; subst hw
      exact List.mem_cons_self _ _
    · simp only [h0, if_false]
      intro hg
      exact List.mem_cons_of_mem _ (ih hg)

theorem ResultMap.get_of_mem (m : ResultMap) (hnd : (m.map Prod.fst).Nodup)
    (k : resultKey) (r : result) : (k, r) ∈ m → m.get k = some r := by
  induction m with
  | nil => simp
  | cons e rest ih =>
    obtain ⟨k0, w⟩ := e
    simp only [List.map_cons, List.nodup_cons] at hnd
    intro hmem
    unfold ResultMap.get
    rcases List.mem_cons.mp hmem with heq | hrest
    · simp only [Prod.mk.injEq] at heq
      simp [heq.1, heq.2]
    · have hk : k ∈ rest.map Prod.fst := List.mem_map.mpr ⟨(k, r), hrest, rfl⟩
      have h0 : ¬ k0 = k := fun e => hnd.1 (e ▸ hk)
      simp only [h0, if_false]
      exact ih hnd.2 hrest

theorem ResultMap.keys_set (m : ResultMap) (key : resultKey) (v : result) :
    (m.set key v).map Prod.fst =
      if key ∈ m.map Prod.fst then m.map Prod.fst else m.map Prod.fst ++ [key] := by
  induction m with
  | nil => simp [ResultMap.set]
  | cons e rest ih =>
    obtain ⟨k0, w⟩ := e
    unfold ResultMap.set
    by_cases h0 : k0 = key
    · subst h0
      simp
    · have h2 : ¬ key = k0 := fun e => h0 e.symm
      simp only [h0, if_false, List.map_cons, ih, List.mem_cons, h2, false_or]
      split <;> simp

theorem ResultMap.nodup_set (m : ResultMap) (key : resultKey) (v : result)
    (hnd : (m.map Prod.fst).Nodup) : ((m.set key v).map Prod.fst).Nodup := by
  rw [ResultMap.keys_set]
  split
  · exact hnd
  · rename_i hk
    rw [List.nodup_append]
    refine ⟨hnd, List.nodup_singleton _, ?_⟩
    intro a ha hb
    simp only [List.mem_singleton] at hb
    exact hk (hb ▸ ha)

/-! ## One iteration of the aggregation loop -/

theorem addTotals_zero (r : result) : addTotals r 0 0 = r := by
  simp [addTotals]

theorem get_collectBody (h : Host) (fuel : Nat) (m m' : ResultMap) (p : Pid)
    (hb : collectBody h fuel m p = some m') (k : resultKey) :
    m'.get k =
      if groupKey h fuel p = some k then
        some (addTotals ((m.get k).getD ⟨k, 0, 0⟩) (cpuShare h fuel k p) (memShare h fuel k p))
      else m.get k := by
  unfold collectBody at hb
  cases hn : h.Name p with
  | error e =>
    simp only [hn, Option.some.injEq] at hb
    subst hb
    simp [groupKey, hn]
  | ok n =>
    simp only [hn] at hb
    cases hf : findParent h fuel n p with
    | none => simp [hf] at hb
    | some res =>
      obtain ⟨a, oe⟩ := res
      cases oe with
      | some e =>
        simp only [hf, Option.some.injEq] at hb
        subst hb
        simp [groupKey, hn, hf]
      | none =>
        simp only [hf] at hb
        have hgk : groupKey h fuel p = some ⟨n, a⟩ := by simp [groupKey, hn, hf]
        by_cases hk : (⟨n, a⟩ : resultKey) = k
        · subst hk
          simp only [hgk, if_true, cpuShare, memShare, contribution]
          cases hg : m.get ⟨n, a⟩ with
          | none =>
            simp only [hg, ResultMap.get_set, if_true, Option.getD_some] at hb
            cases ht : h.Times p with
            | error e =>
              simp only [ht, Option.some.injEq] at hb
              subst hb
              simp [ResultMap.get_set, addTotals]
            | ok t =>
              simp only [ht] at hb
              cases hm : h.MemoryPercent p with
              | error e =>
                simp only [hm, Option.some.injEq] at hb
                subst hb
                simp [ResultMap.get_set, addTotals]
              | ok x =>
                simp only [hm, Option.some.injEq] at hb
                subst hb
                simp [ResultMap.get_set, addTotals]
          | some r0 =>
            simp only [hg, Option.getD_some] at hb
            cases ht : h.Times p with
            | error e =>
              simp only [ht, Option.some.injEq] at hb
              subst hb
              simp [hg, addTotals]
            | ok t =>
              simp only [ht] at hb
              cases hm : h.MemoryPercent p with
              | error e =>
                simp only [hm, Option.some.injEq] at hb
                subst hb
                simp [hg, addTotals]
              | ok x =>
                simp only [hm, Option.some.injEq] at hb
                subst hb
                simp [ResultMap.get_set, addTotals]
        · have hk' : ¬ (some (⟨n, a⟩ : resultKey) = some k) := by simpa using hk
          simp only [hgk, hk', if_false]
          cases hg : m.get ⟨n, a⟩ with
          | none =>
            simp only [hg] at hb
            cases ht : h.Times p with
            | error e =>
              simp only [ht, Option.some.injEq] at hb
              subst hb
              simp [ResultMap.get_set, hk]
            | ok t =>
              simp only [ht] at hb
              cases hm : h.MemoryPercent p with
              | error e =>
                simp only [hm, Option.some.injEq] at hb
                subst hb
                simp [ResultMap.get_set, hk]
              | ok x =>
                simp only [hm, Option.some.injEq] at hb
                subst hb
                simp [ResultMap.get_set, hk]
          | some r0 =>
            simp only [hg] at hb
            cases ht : h.Times p with
            | error e =>
              simp only [ht, Option.some.injEq] at hb
              subst hb
              rfl
            | ok t =>
              simp only [ht] at hb
              cases hm : h.MemoryPercent p with
              | error e =>
                simp only [hm, Option.some.injEq] at hb
                subst hb
                rfl
              | ok x =>
                simp only [hm, Option.some.injEq] at hb
                subst hb
                simp [ResultMap.get_set, hk]

theorem collectBody_shape (h : Host) (fuel : Nat) (m m' : ResultMap) (p : Pid)
    (hb : collectBody h fuel m p = some m') :
    ∃ l : List (resultKey × result), m' = l.foldl (fun acc e => acc.set e.1 e.2) m := by
  unfold collectBody at hb
  cases hn : h.Name p with
  | error e =>
    simp only [hn, Option.some.injEq] at hb
    exact ⟨[], hb.symm⟩
  | ok n =>
    simp only [hn] at hb
    cases hf : findParent h fuel n p with
    | none => simp [hf] at hb
    | some res =>
      obtain ⟨a, oe⟩ := res
      cases oe with
      | some e =>
        simp only [hf, Option.some.injEq] at hb
        exact ⟨[], hb.symm⟩
      | none =>
        simp only [hf] at hb
        cases hg : m.get ⟨n, a⟩ with
        | none =>
          simp only [hg] at hb
          cases ht : h.Times p with
          | error e =>
            simp only [ht, Option.some.injEq] at hb
            exact ⟨[(_, _)], hb.symm⟩
          | ok t =>
            simp only [ht] at hb
            cases hm : h.MemoryPercent p with
            | error e =>
              simp only [hm, Option.some.injEq] at hb
              exact ⟨[(_, _)], hb.symm⟩
            | ok x =>
              simp only [hm, Option.some.injEq] at hb
              exact ⟨[(_, _), (_, _)], hb.symm⟩
        | some r0 =>
          simp only [hg] at hb
          cases ht : h.Times p with
          | error e =>
            simp only [ht, Option.some.injEq] at hb
            exact ⟨[], hb.symm⟩
          | ok t =>
            simp only [ht] at hb
            cases hm : h.MemoryPercent p with
            | error e =>
              simp only [hm, Option.some.injEq] at hb
              exact ⟨[], hb.symm⟩
            | ok x =>
              simp only [hm, Option.some.injEq] at hb
              exact ⟨[(_, _)], hb.symm⟩

theorem ResultMap.nodup_foldl_set (l : List (resultKey × result)) (m : ResultMap)
    (hnd : (m.map Prod.fst).Nodup) :
    ((l.foldl (fun acc e => acc.set e.1 e.2) m).map Prod.fst).Nodup := by
  induction l generalizing m with
  | nil => exact hnd
  | cons e rest ih =>
    simp only [List.foldl_cons]
    exact ih _ (ResultMap.nodup_set m e.1 e.2 hnd)

theorem nodup_collectBody (h : Host) (fuel : Nat) (m m' : ResultMap) (p : Pid)
    (hb : collectBody h fuel m p = some m') (hnd : (m.map Prod.fst).Nodup) :
    (m'.map Prod.fst).Nodup := by
  obtain ⟨l, rfl⟩ := collectBody_shape h fuel m m' p hb
  exact ResultMap.nodup_foldl_set l m hnd

theorem collectBody_returns (h : Host) (fuel : Nat) (m : ResultMap) (p : Pid)
    (hret : ∀ n, h.Name p = .ok n → ∃ r, findParent h fuel n p = some r) :
    ∃ m', collectBody h fuel m p = some m' := by
  unfold collectBody
  cases hn : h.Name p with
  | error e => exact ⟨m, rfl⟩
  | ok n =>
    obtain ⟨r, hr⟩ := hret n hn
    obtain ⟨a, oe⟩ := r
    simp only [hr]
    cases oe with
    | some e => exact ⟨m, rfl⟩
    | none =>
      simp only
      split
      · exact ⟨_, rfl⟩
      · split
        · exact ⟨_, rfl⟩
        · exact ⟨_, rfl⟩

/-! ## The aggregation loop -/

theorem collectLoop_append (h : Host) (fuel : Nat) (xs ys : List Pid) (m : ResultMap) :
    collectLoop h fuel m (xs ++ ys) =
      (collectLoop h fuel m xs).bind fun m1 => collectLoop h fuel m1 ys := by
  induction xs generalizing m with
  | nil => simp [collectLoop]
  | cons x rest ih =>
    simp only [List.cons_append, collectLoop]
    cases collectBody h fuel m x with
    | none => simp
    | some m1 => simpa using ih m1

theorem collectLoop_returns (h : Host) (fuel : Nat) (ps : List Pid)
    (hret : ∀ p ∈ ps, ∀ n, h.Name p = .ok n → ∃ r, findParent h fuel n p = some r)
    (m : ResultMap) : ∃ m', collectLoop h fuel m ps = some m' := by
  induction ps generalizing m with
  | nil => exact ⟨m, rfl⟩
  | cons p rest ih =>
    obtain ⟨m1, hm1⟩ := collectBody_returns h fuel m p (hret p (List.mem_cons_self _ _))
    obtain ⟨m', hm'⟩ := ih (fun q hq => hret q (List.mem_cons_of_mem _ hq)) m1
    exact ⟨m', by simp only [collectLoop, hm1, hm']⟩

theorem collectLoop_returns_of_finiteChains (h : Host) (fuel : Nat) (ps : List Pid)
    (hfin : FiniteChains h fuel ps) (m : ResultMap) :
    ∃ m', collectLoop h fuel m ps = some m' := by
  apply collectLoop_returns
  intro p hp n _
  obtain ⟨chain, hc, hlen⟩ := hfin p hp
  obtain ⟨r, hr⟩ := findParent_of_ancestorChain h chain p n hc
  exact ⟨r, findParent_mono h _ n p r hr fuel hlen⟩

theorem nodup_collectLoop (h : Host) (fuel : Nat) (ps : List Pid) (m m' : ResultMap)
    (hl : collectLoop h fuel m ps = some m') (hnd : (m.map Prod.fst).Nodup) :
    (m'.map Prod.fst).Nodup := by
  induction ps generalizing m with
  | nil =>
    simp only [collectLoop, Option.some.injEq] at hl
    exact hl ▸ hnd
  | cons p rest ih =>
    simp only [collectLoop] at hl
    cases hb : collectBody h fuel m p with
    | none => simp [hb] at hl
    | some m1 =>
      simp only [hb] at hl
      exact ih m1 hl (nodup_collectBody h fuel m m1 p hb hnd)

theorem get_collectLoop (h : Host) (fuel : Nat) (ps : List Pid) (m m' : ResultMap)
    (hl : collectLoop h fuel m ps = some m') (k : resultKey) :
    m'.get k =
      if (m.get k).isSome || touched h fuel k ps then
        some (addTotals ((m.get k).getD ⟨k, 0, 0⟩)
          (ps.map (cpuShare h fuel k)).sum (ps.map (memShare h fuel k)).sum)
      else none := by
  induction ps generalizing m with
  | nil =>
    simp only [collectLoop, Option.some.injEq] at hl
    subst hl
    cases hg : m.get k <;> simp [touched, addTotals_zero]
  | cons p rest ih =>
    simp only [collectLoop] at hl
    cases hb : collectBody h fuel m p with
    | none => simp [hb] at hl
    | some m1 =>
      simp only [hb] at hl
      rw [ih m1 hl, get_collectBody h fuel m m1 p hb k]
      by_cases hgk : groupKey h fuel p = some k
      · simp [hgk, touched, addTotals, add_assoc]
      · have hc : cpuShare h fuel k p = 0 := by simp [cpuShare, hgk]
        have hx : memShare h fuel k p = 0 := by simp [memShare, hgk]
        simp [hgk, touched, hc, hx]

/-! ## Sums over the counted processes -/

theorem contribution_some (h : Host) (p : Pid) (c x : ℚ)
    (hc : contribution h p = some (c, x)) : cpuSeconds h p = c ∧ memoryPercent h p = x := by
  unfold contribution at hc
  unfold cpuSeconds memoryPercent
  cases ht : h.Times p with
  | error e => simp [ht] at hc
  | ok t =>
    cases hm : h.MemoryPercent p with
    | error e => simp [ht, hm] at hc
    | ok y =>
      simp only [ht, hm, Option.some.injEq, Prod.mk.injEq] at hc
      exact hc

theorem sum_cpuShare (h : Host) (fuel : Nat) (k : resultKey) (ps : List Pid) :
    (ps.map (cpuShare h fuel k)).sum = ((counted h fuel k ps).map (cpuSeconds h)).sum := by
  induction ps with
  | nil => rfl
  | cons p rest ih =>
    simp only [List.map_cons, List.sum_cons, ih, counted, List.filter_cons]
    by_cases hgk : groupKey h fuel p = some k
    · cases hc : contribution h p with
      | none => simp [cpuShare, hgk, hc]
      | some cx =>
        obtain ⟨c, x⟩ := cx
        simp [cpuShare, hgk, hc, (contribution_some h p c x hc).1]
    · simp [cpuShare, hgk]

theorem sum_memShare (h : Host) (fuel : Nat) (k : resultKey) (ps : List Pid) :
    (ps.map (memShare h fuel k)).sum =
      ((counted h fuel k ps).map (memoryPercent h)).sum := by
  induction ps with
  | nil => rfl
  | cons p rest ih =>
    simp only [List.map_cons, List.sum_cons, ih, counted, List.filter_cons]
    by_cases hgk : groupKey h fuel p = some k
    · cases hc : contribution h p with
      | none => simp [memShare, hgk, hc]
      | some cx =>
        obtain ⟨c, x⟩ := cx
        simp [memShare, hgk, hc, (contribution_some h p c x hc).2]
    · simp [memShare, hgk]

theorem touched_iff (h : Host) (fuel : Nat) (k : resultKey) (ps : List Pid) :
    touched h fuel k ps = true ↔ ∃ p ∈ ps, groupKey h fuel p = some k := by
  simp [touched]

/-- The map built from the empty map: a group is present exactly when some process has it,
and its totals are the sums over the processes counted in it. -/
theorem get_collectLoop_nil (h : Host) (fuel : Nat) (ps : List Pid) (m : ResultMap)
    (hl : collectLoop h fuel [] ps = some m) (k : resultKey) :
    m.get k =
      if touched h fuel k ps then
        some ⟨k, ((counted h fuel k ps).map (cpuSeconds h)).sum,
          ((counted h fuel k ps).map (memoryPercent h)).sum⟩
      else none := by
  rw [get_collectLoop h fuel ps [] m hl k, sum_cpuShare, sum_memShare]
  simp [ResultMap.get, addTotals]

theorem get_inOrder_mem (m : ResultMap) (k : resultKey) (r : result)
    (hg : m.get k = some r) : r ∈ m.map Prod.snd :=
  List.mem_map.mpr ⟨(k, r), ResultMap.mem_keys_of_get m k r hg, rfl⟩

/-! ## Properties of `Collect` -/

theorem NewConstMetric_cpu (r : result) :
    NewConstMetric "mac_process_cpu_usage_total" ["name", "parent"] .CounterValue
      r.cpuTotal [r.name, r.parent] = if validLabels r then some (cpuMetric r) else none := by
  simp [NewConstMetric, validLabels, cpuMetric]

theorem NewConstMetric_mem (r : result) :
    NewConstMetric "mac_process_mem_usage" ["name", "parent"] .GaugeValue
      r.mem [r.name, r.parent] = if validLabels r then some (memMetric r) else none := by
  simp [NewConstMetric, validLabels, memMetric]

/-- The emission loop sends the metrics of the results before the first one with a label
that is not valid UTF-8 and panics there; it returns when there is no such result. -/
theorem emitMetrics_eq (l : List result) (sent : List Metric) :
    emitMetrics sent l =
      if l.all validLabels then .returned (sent ++ l.flatMap metricsOf)
      else .panicked (sent ++ (l.takeWhile validLabels).flatMap metricsOf) := by
  induction l generalizing sent with
  | nil => simp [emitMetrics]
  | cons r rest ih =>
    unfold emitMetrics
    rw [NewConstMetric_cpu, NewConstMetric_mem]
    by_cases hv : validLabels r = true
    · simp only [hv, if_true, ih, List.all_cons, Bool.true_and, List.takeWhile_cons,
        List.flatMap_cons, metricsOf, List.append_assoc, List.cons_append, List.nil_append]
    · simp [hv]


theorem members_eq_counted (h : Host) (fuel : Nat) (k : resultKey) (ps : List Pid)
    (hall : ∀ p ∈ ps, (contribution h p).isSome) :
    members h fuel k ps = counted h fuel k ps := by
  unfold members counted
  apply List.filter_congr
  intro p hp
  simp [hall p hp]

theorem Collect_of_collectLoop (h : Host) (fuel : Nat) (rangeOrder : ResultMap → List result)
    (procs : List Pid) (m : ResultMap) (hprocs : h.Processes = .ok procs)
    (hl : collectLoop h fuel [] procs = some m) :
    Collect h fuel rangeOrder = some (emitMetrics [] (rangeOrder m)) := by
  unfold Collect
  simp only [hprocs, hl]

/-- C1: when the listing returns `procs` and every read of every listed process succeeds
(name, ancestor walk, CPU times, memory percent), the first loop of Collect ends with a
map, from which the metrics are then sent (Collect returns after sending the two metrics
of every result when all their labels are valid UTF-8), and in that map every present
key has as cpuTotal the sum of User plus System, and as mem the sum
of the memory percents, over exactly the listed processes whose own name and findParent
result are that key; and the key of every listed process is present. -/
theorem Collect_group_totals (h : Host) (fuel : Nat) (procs : List Pid)
    (rangeOrder : ResultMap → List result) (hprocs : h.Processes = .ok procs)
    (hall : ∀ p ∈ procs, ∃ n a t x, h.Name p = .ok n ∧
      findParent h fuel n p = some (a, none) ∧ h.Times p = .ok t ∧
      h.MemoryPercent p = .ok x) :
    ∃ m, collectLoop h fuel [] procs = some m ∧
      Collect h fuel rangeOrder = some (emitMetrics [] (rangeOrder m)) ∧
      ((∀ r ∈ rangeOrder m, validLabels r = true) →
        Collect h fuel rangeOrder = some (.returned ((rangeOrder m).flatMap metricsOf))) ∧
      (∀ k r, m.get k = some r →
        r.toresultKey = k ∧
        r.cpuTotal = ((members h fuel k procs).map (cpuSeconds h)).sum ∧
        r.mem = ((members h fuel k procs).map (memoryPercent h)).sum) ∧
      (∀ p ∈ procs, ∃ k, groupKey h fuel p = some k ∧ (m.get k).isSome) := by
  have hret : ∀ p ∈ procs, ∀ n, h.Name p = .ok n → ∃ r, findParent h fuel n p = some r := by
    intro p hp n hn
    obtain ⟨n', a, _, _, hn', hf, _, _⟩ := hall p hp
    rw [hn] at hn'
    cases hn'
    exact ⟨_, hf⟩
  have hcontrib : ∀ p ∈ procs, (contribution h p).isSome := by
    intro p hp
    obtain ⟨_, _, t, x, _, _, ht, hx⟩ := hall p hp
    simp [contribution, ht, hx]
  obtain ⟨m, hm⟩ := collectLoop_returns h fuel procs hret []
  have hcol := Collect_of_collectLoop h fuel rangeOrder procs m hprocs hm
  refine ⟨m, hm, hcol, ?_, ?_, ?_⟩
  · intro hvalid
    rw [hcol, emitMetrics_eq, List.all_eq_true.mpr hvalid]
    simp
  · intro k r hg
    rw [get_collectLoop_nil h fuel procs m hm k] at hg
    rw [members_eq_counted h fuel k procs hcontrib]
    split at hg
    · simp only [Option.some.injEq] at hg
      subst hg
      exact ⟨rfl, rfl, rfl⟩
    · simp at hg
  · intro p hp
    obtain ⟨n, a, _, _, hn, hf, _, _⟩ := hall p hp
    have hgk : groupKey h fuel p = some ⟨n, a⟩ := by simp [groupKey, hn, hf]
    refine ⟨⟨n, a⟩, hgk, ?_⟩
    rw [get_collectLoop_nil h fuel procs m hm _]
    have ht : touched h fuel ⟨n, a⟩ procs = true :=
      (touched_iff h fuel _ procs).mpr ⟨p, hp, hgk⟩
    simp [ht]

theorem Collect_group_totals_witness :
    ∃ m, collectLoop sessionHost 4 [] [1, 2, 3, 4] = some m ∧
      Collect sessionHost 4 inOrder = some (emitMetrics [] (inOrder m)) ∧
      ((∀ r ∈ inOrder m, validLabels r = true) →
        Collect sessionHost 4 inOrder = some (.returned ((inOrder m).flatMap metricsOf))) ∧
      (∀ k r, m.get k = some r →
        r.toresultKey = k ∧
        r.cpuTotal = ((members sessionHost 4 k [1, 2, 3, 4]).map (cpuSeconds sessionHost)).sum ∧
        r.mem = ((members sessionHost 4 k [1, 2, 3, 4]).map (memoryPercent sessionHost)).sum) ∧
      (∀ p ∈ [1, 2, 3, 4], ∃ k, groupKey sessionHost 4 p = some k ∧ (m.get k).isSome) :=
  Collect_group_totals sessionHost 4 [1, 2, 3, 4] inOrder rfl (by
    intro p hp
    simp only [List.mem_cons, List.mem_singleton, List.not_mem_nil, or_false] at hp
    rcases hp with rfl | rfl | rfl | rfl
    · exact ⟨goString "launchd", (goString "launchd"), ⟨1, 2⟩, 5, by decide, by decide, by decide, by decide⟩
    · exact ⟨goString "Terminal", (goString "Terminal"), ⟨1, 2⟩, 5, by decide, by decide, by decide, by decide⟩
    · exact ⟨goString "bash", (goString "Terminal"), ⟨1, 2⟩, 5, by decide, by decide, by decide, by decide⟩
    · exact ⟨goString "node", (goString "Terminal"), ⟨1, 2⟩, 5, by decide, by decide, by decide, by decide⟩)

/-- C6 (as amended): when the process listing fails, Collect sends no metric and ends the
serving process: log.Fatal logs the error and exits with status 1. -/
theorem Collect_listing_failure (h : Host) (fuel : Nat)
    (rangeOrder : ResultMap → List result) (e : Err) (he : h.Processes = .error e) :
    Collect h fuel rangeOrder = some (.exited 1) := by
  unfold Collect
  simp only [he]

theorem Collect_listing_failure_witness :
    downHost.Processes = .error "sysctl failed" ∧
    Collect downHost 0 inOrder = some (.exited 1) :=
  ⟨rfl, Collect_listing_failure downHost 0 inOrder "sysctl failed" rfl⟩

/-- C6 as stated fails: on a table whose listing fails, Collect does not return to the
scrape at all (with or without metrics), it ends the serving process with status 1. -/
theorem listing_failure_ends_process :
    downHost.Processes = .error "sysctl failed" ∧
    (∀ fuel sent, Collect downHost fuel inOrder ≠ some (.returned sent)) ∧
    (∀ fuel, Collect downHost fuel inOrder = some (.exited 1)) := by
  refine ⟨rfl, ?_, ?_⟩
  · intro fuel sent
    simp [Collect, downHost]
  · intro fuel
    simp [Collect, downHost]

theorem collectBody_skip (h : Host) (fuel : Nat) (m : ResultMap) (p : Pid)
    (hskip : (∃ e, h.Name p = .error e) ∨
      ∃ n x e, h.Name p = .ok n ∧ findParent h fuel n p = some (x, some e)) :
    collectBody h fuel m p = some m := by
  unfold collectBody
  rcases hskip with ⟨e, hn⟩ | ⟨n, x, e, hn, hf⟩
  · simp only [hn]
  · simp only [hn, hf]

/-- C8: a listed process whose own name read fails, or whose findParent call returns an
error, is skipped and the scan goes on: the map built from the list is the map built
from the list without that process. -/
theorem Collect_skips_unnamed (h : Host) (fuel : Nat) (pre post : List Pid) (p : Pid)
    (hskip : (∃ e, h.Name p = .error e) ∨
      ∃ n x e, h.Name p = .ok n ∧ findParent h fuel n p = some (x, some e)) :
    collectLoop h fuel [] (pre ++ p :: post) = collectLoop h fuel [] (pre ++ post) := by
  rw [collectLoop_append, collectLoop_append]
  congr 1
  funext m1
  simp only [collectLoop, collectBody_skip h fuel m1 p hskip]

theorem Collect_skips_unnamed_witness :
    collectLoop mixedHost 4 [] ([2, 3] ++ 9 :: [4]) = collectLoop mixedHost 4 [] ([2, 3] ++ [4]) ∧
    collectLoop mixedHost 4 [] ([2, 3] ++ 10 :: [4]) = collectLoop mixedHost 4 [] ([2, 3] ++ [4]) :=
  ⟨Collect_skips_unnamed mixedHost 4 [2, 3] [4] 9
      (Or.inr ⟨goString "orphan", [], "gone", by decide, by decide⟩),
   Collect_skips_unnamed mixedHost 4 [2, 3] [4] 10 (Or.inl ⟨"gone", by decide⟩)⟩

theorem findParent_of_groupKey (h : Host) (fuel : Nat) (p : Pid) (key : resultKey)
    (hgk : groupKey h fuel p = some key) :
    h.Name p = .ok key.name ∧ findParent h fuel key.name p = some (key.parent, none) := by
  unfold groupKey at hgk
  cases hn : h.Name p with
  | error e => simp [hn] at hgk
  | ok n =>
    simp only [hn] at hgk
    cases hf : findParent h fuel n p with
    | none => simp [hf] at hgk
    | some res =>
      obtain ⟨a, oe⟩ := res
      cases oe with
      | some e => simp [hf] at hgk
      | none =>
        simp only [hf, Option.some.injEq] at hgk
        subst hgk
        exact ⟨rfl, hf⟩

theorem counted_of_not_touched (h : Host) (fuel : Nat) (k : resultKey) (ps : List Pid)
    (ht : touched h fuel k ps = false) : counted h fuel k ps = [] := by
  unfold counted
  rw [List.filter_eq_nil_iff]
  intro q hq hcond
  have hgk : groupKey h fuel q = some k := by
    simp only [Bool.and_eq_true, decide_eq_true_eq] at hcond
    exact hcond.1
  have : touched h fuel k ps = true := (touched_iff h fuel k ps).mpr ⟨q, hq, hgk⟩
  rw [ht] at this
  cases this

/-- A listed process with a group but an unreadable field adds nothing to any total: the
map is the one built without it, except that its group is present in any case. -/
theorem collectLoop_unread (h : Host) (fuel : Nat) (pre post : List Pid) (p : Pid)
    (key : resultKey) (hgk : groupKey h fuel p = some key)
    (hc : contribution h p = none) (hfin : FiniteChains h fuel (pre ++ post)) :
    ∃ m m0, collectLoop h fuel [] (pre ++ p :: post) = some m ∧
      collectLoop h fuel [] (pre ++ post) = some m0 ∧
      ∀ k, m.get k = if k = key then some ((m0.get k).getD ⟨k, 0, 0⟩) else m0.get k := by
  obtain ⟨m0, hm0⟩ := collectLoop_returns_of_finiteChains h fuel (pre ++ post) hfin []
  have hret : ∀ q ∈ pre ++ p :: post, ∀ n, h.Name q = .ok n →
      ∃ r, findParent h fuel n q = some r := by
    intro q hq n hn
    rcases List.mem_append.mp hq with hq | hq
    · obtain ⟨chain, hch, hlen⟩ := hfin q (List.mem_append.mpr (Or.inl hq))
      obtain ⟨r, hr⟩ := findParent_of_ancestorChain h chain q n hch
      exact ⟨r, findParent_mono h _ n q r hr fuel hlen⟩
    · rcases List.mem_cons.mp hq with rfl | hq
      · obtain ⟨hn', hf⟩ := findParent_of_groupKey h fuel q key hgk
        rw [hn] at hn'
        cases hn'
        exact ⟨_, hf⟩
      · obtain ⟨chain, hch, hlen⟩ := hfin q (List.mem_append.mpr (Or.inr hq))
        obtain ⟨r, hr⟩ := findParent_of_ancestorChain h chain q n hch
        exact ⟨r, findParent_mono h _ n q r hr fuel hlen⟩
  obtain ⟨m, hm⟩ := collectLoop_returns h fuel (pre ++ p :: post) hret []
  refine ⟨m, m0, hm, hm0, ?_⟩
  intro k
  have hcount : counted h fuel k (pre ++ p :: post) = counted h fuel k (pre ++ post) := by
    simp [counted, List.filter_append, List.filter_cons, hc]
  have htouch : touched h fuel k (pre ++ p :: post) =
      (touched h fuel k (pre ++ post) || decide (key = k)) := by
    simp only [touched, List.any_append, List.any_cons, hgk, Option.some.injEq]
    cases List.any pre _ <;> cases List.any post _ <;> cases decide (key = k) <;> rfl
  rw [get_collectLoop_nil h fuel _ m hm k, get_collectLoop_nil h fuel _ m0 hm0 k,
    hcount, htouch]
  by_cases hk : k = key
  · subst hk
    cases ht : touched h fuel k (pre ++ post)
    · rw [counted_of_not_touched h fuel k _ ht]
      simp
    · simp
  · have hk' : ¬ key = k := fun e => hk e.symm
    simp [hk, hk']

/-- C4 (as amended): a listed process whose name read, ancestor walk and CPU times read
succeed but whose memory percent read fails adds nothing to any total, its User plus
System included: the map is the one built from the list without it, except that its
group is present in any case (with zero totals when no other process has that group).
The scan is not aborted: the processes after it are aggregated as without it. -/
theorem Collect_memory_failure (h : Host) (fuel : Nat) (pre post : List Pid) (p : Pid)
    (n a : GoString) (t : TimesStat) (e : Err) (hn : h.Name p = .ok n)
    (hf : findParent h fuel n p = some (a, none)) (ht : h.Times p = .ok t)
    (hm : h.MemoryPercent p = .error e) (hfin : FiniteChains h fuel (pre ++ post)) :
    ∃ m m0, collectLoop h fuel [] (pre ++ p :: post) = some m ∧
      collectLoop h fuel [] (pre ++ post) = some m0 ∧
      ∀ k, m.get k =
        if k = ⟨n, a⟩ then some ((m0.get k).getD ⟨k, 0, 0⟩) else m0.get k :=
  collectLoop_unread h fuel pre post p ⟨n, a⟩ (by simp [groupKey, hn, hf])
    (by simp [contribution, ht, hm]) hfin

/-- C5 (as amended): a listed process whose name read and ancestor walk succeed but whose
CPU times read fails adds nothing to any total, its memory percent included (the memory
percent is not read at all): the map is the one built from the list without it, except
that its group is present in any case. The scan is not aborted. -/
theorem Collect_times_failure (h : Host) (fuel : Nat) (pre post : List Pid) (p : Pid)
    (n a : GoString) (e : Err) (hn : h.Name p = .ok n)
    (hf : findParent h fuel n p = some (a, none)) (ht : h.Times p = .error e)
    (hfin : FiniteChains h fuel (pre ++ post)) :
    ∃ m m0, collectLoop h fuel [] (pre ++ p :: post) = some m ∧
      collectLoop h fuel [] (pre ++ post) = some m0 ∧
      ∀ k, m.get k =
        if k = ⟨n, a⟩ then some ((m0.get k).getD ⟨k, 0, 0⟩) else m0.get k :=
  collectLoop_unread h fuel pre post p ⟨n, a⟩ (by simp [groupKey, hn, hf])
    (by simp [contribution, ht]) hfin

theorem finiteChains_mixedHost : FiniteChains mixedHost 4 [1, 2, 3, 4, 5, 6, 7, 8, 9] := by
  intro p hp
  simp only [List.mem_cons, List.mem_singleton, List.not_mem_nil, or_false] at hp
  rcases hp with rfl | rfl | rfl | rfl | rfl | rfl | rfl | rfl | rfl
  · exact ⟨[], by decide, by decide⟩
  · exact ⟨[1], by decide, by decide⟩
  · exact ⟨[2, 1], by decide, by decide⟩
  · exact ⟨[3, 2, 1], by decide, by decide⟩
  · exact ⟨[1], by decide, by decide⟩
  · exact ⟨[5, 1], by decide, by decide⟩
  · exact ⟨[2, 1], by decide, by decide⟩
  · exact ⟨[2, 1], by decide, by decide⟩
  · exact ⟨[], by decide, by decide⟩

theorem Collect_memory_failure_witness :
    ∃ m m0, collectLoop mixedHost 4 [] ([2] ++ 7 :: [3]) = some m ∧
      collectLoop mixedHost 4 [] ([2] ++ [3]) = some m0 ∧
      ∀ k, m.get k =
        if k = ⟨goString "zsh", goString "Terminal"⟩ then some ((m0.get k).getD ⟨k, 0, 0⟩) else m0.get k :=
  Collect_memory_failure mixedHost 4 [2] [3] 7 (goString "zsh") (goString "Terminal") ⟨1, 2⟩ "denied"
    (by decide) (by decide) (by decide) (by decide)
    (fun p hp => finiteChains_mixedHost p (by
      simp only [List.cons_append, List.nil_append, List.mem_cons, List.mem_singleton,
        List.not_mem_nil, or_false] at hp ⊢
      rcases hp with rfl | rfl <;> simp))

/-- C4 as stated fails: process 7 (zsh below Terminal) has CPU times of 1 and 2 seconds
and an unreadable memory percent; after the scan of 7 and 3 the cpuTotal of the group
(zsh, Terminal) is 0, not 1 + 2, while process 3, listed after it, is aggregated. -/
theorem memory_failure_drops_cpu :
    mixedHost.Name 7 = .ok (goString "zsh") ∧
    findParent mixedHost 4 (goString "zsh") 7 = some (goString "Terminal", none) ∧
    mixedHost.Times 7 = .ok ⟨1, 2⟩ ∧
    mixedHost.MemoryPercent 7 = .error "denied" ∧
    ∃ m r, collectLoop mixedHost 4 [] [7, 3] = some m ∧
      m.get ⟨goString "zsh", goString "Terminal"⟩ = some r ∧ r.cpuTotal = 0 ∧ r.cpuTotal ≠ 1 + 2 ∧
      m.get ⟨goString "bash", goString "Terminal"⟩ = some ⟨⟨goString "bash", goString "Terminal"⟩, 3, 5⟩ := by
  refine ⟨by decide, by decide, by decide, by decide,
    [(⟨goString "zsh", goString "Terminal"⟩, ⟨⟨goString "zsh", goString "Terminal"⟩, 0, 0⟩),
     (⟨goString "bash", goString "Terminal"⟩, ⟨⟨goString "bash", goString "Terminal"⟩, 3, 5⟩)],
    ⟨⟨goString "zsh", goString "Terminal"⟩, 0, 0⟩, by decide!, by decide!, rfl, by norm_num, by decide!⟩

theorem Collect_times_failure_witness :
    ∃ m m0, collectLoop mixedHost 4 [] ([2] ++ 8 :: [3]) = some m ∧
      collectLoop mixedHost 4 [] ([2] ++ [3]) = some m0 ∧
      ∀ k, m.get k =
        if k = ⟨goString "fish", goString "Terminal"⟩ then some ((m0.get k).getD ⟨k, 0, 0⟩) else m0.get k :=
  Collect_times_failure mixedHost 4 [2] [3] 8 (goString "fish") (goString "Terminal") "denied"
    (by decide) (by decide) (by decide)
    (fun p hp => finiteChains_mixedHost p (by
      simp only [List.cons_append, List.nil_append, List.mem_cons, List.mem_singleton,
        List.not_mem_nil, or_false] at hp ⊢
      rcases hp with rfl | rfl <;> simp))

/-- C5 as stated fails: process 8 (fish below Terminal) has a readable memory percent of
5 and unreadable CPU times; after the scan of 8 and 3 the mem total of the group
(fish, Terminal) is 0, not 5, while process 3, listed after it, is aggregated. -/
theorem times_failure_drops_memory :
    mixedHost.Name 8 = .ok (goString "fish") ∧
    findParent mixedHost 4 (goString "fish") 8 = some (goString "Terminal", none) ∧
    mixedHost.Times 8 = .error "denied" ∧
    mixedHost.MemoryPercent 8 = .ok 5 ∧
    ∃ m r, collectLoop mixedHost 4 [] [8, 3] = some m ∧
      m.get ⟨goString "fish", goString "Terminal"⟩ = some r ∧ r.mem = 0 ∧ r.mem ≠ 5 ∧
      m.get ⟨goString "bash", goString "Terminal"⟩ = some ⟨⟨goString "bash", goString "Terminal"⟩, 3, 5⟩ := by
  refine ⟨by decide, by decide, by decide, by decide,
    [(⟨goString "fish", goString "Terminal"⟩, ⟨⟨goString "fish", goString "Terminal"⟩, 0, 0⟩),
     (⟨goString "bash", goString "Terminal"⟩, ⟨⟨goString "bash", goString "Terminal"⟩, 3, 5⟩)],
    ⟨⟨goString "fish", goString "Terminal"⟩, 0, 0⟩, by decide!, by decide!, rfl, by norm_num, by decide!⟩


/-! ## The emitted metrics -/

theorem mem_metricsOf (r : result) (x : Metric) (hx : x ∈ metricsOf r) :
    x.labelValues = [r.name, r.parent] := by
  simp only [metricsOf, List.mem_cons, List.mem_singleton, List.not_mem_nil, or_false] at hx
  rcases hx with rfl | rfl <;> rfl

theorem resultKey_of_labels (r r' : result)
    (hl : [r'.name, r'.parent] = [r.name, r.parent]) : r'.toresultKey = r.toresultKey := by
  simp only [List.cons.injEq, and_true] at hl
  cases hr : r'.toresultKey
  cases hr2 : r.toresultKey
  have e1 : r'.name = r'.toresultKey.name := rfl
  have e2 : r'.parent = r'.toresultKey.parent := rfl
  have e3 : r.name = r.toresultKey.name := rfl
  have e4 : r.parent = r.toresultKey.parent := rfl
  rw [e1, e2, e3, e4, hr, hr2] at hl
  simp only at hl
  rw [hl.1, hl.2]

theorem metrics_nodup (l : List result) (hnd : (l.map result.toresultKey).Nodup) :
    ((l.flatMap metricsOf).map fun x => (x.fqName, x.labelValues)).Nodup := by
  induction l with
  | nil => simp
  | cons r rest ih =>
    simp only [List.map_cons, List.nodup_cons] at hnd
    have hfresh : ∀ (nm : String),
        (nm, [r.name, r.parent]) ∉
          (rest.flatMap metricsOf).map fun x => (x.fqName, x.labelValues) := by
      intro nm hmem
      obtain ⟨x, hx, hxe⟩ := List.mem_map.mp hmem
      obtain ⟨r', hr', hxr⟩ := List.mem_flatMap.mp hx
      simp only [Prod.mk.injEq] at hxe
      rw [mem_metricsOf r' x hxr] at hxe
      exact hnd.1 (List.mem_map.mpr ⟨r', hr', resultKey_of_labels r r' hxe.2⟩)
    simp only [List.flatMap_cons, metricsOf, List.cons_append, List.nil_append, List.map_cons,
      List.nodup_cons, List.mem_cons, Prod.mk.injEq, cpuMetric, memMetric]
    refine ⟨?_, hfresh _, ih hnd.2⟩
    rintro (⟨hname, _⟩ | hmem)
    · exact absurd hname (by decide)
    · exact hfresh _ hmem

theorem sent_emitMetrics_sublist (l : List result) :
    ((emitMetrics [] l).sent).Sublist (l.flatMap metricsOf) := by
  rw [emitMetrics_eq]
  split
  · simp [Outcome.sent]
  · simp only [Outcome.sent, List.nil_append]
    obtain ⟨t, ht⟩ := List.takeWhile_prefix validLabels (l := l)
    conv => rhs; rw [← ht, List.flatMap_append]
    exact List.sublist_append_left _ _

theorem values_keys_collectLoop (h : Host) (fuel : Nat) (ps : List Pid) (m : ResultMap)
    (hl : collectLoop h fuel [] ps = some m) :
    (m.map Prod.snd).map result.toresultKey = m.map Prod.fst := by
  have hnd : (m.map Prod.fst).Nodup :=
    nodup_collectLoop h fuel ps [] m hl (by simp)
  rw [List.map_map]
  apply List.map_congr_left
  intro e he
  obtain ⟨k, r⟩ := e
  have hg := ResultMap.get_of_mem m hnd k r he
  rw [get_collectLoop_nil h fuel ps m hl k] at hg
  split at hg
  · simp only [Option.some.injEq] at hg
    subst hg
    rfl
  · simp at hg

/-- Every value of the map built from the empty map carries the group of a listed
process. -/
theorem group_of_value (h : Host) (fuel : Nat) (ps : List Pid) (m : ResultMap)
    (hl : collectLoop h fuel [] ps = some m) (r : result) (hr : r ∈ m.map Prod.snd) :
    ∃ p ∈ ps, groupKey h fuel p = some r.toresultKey := by
  obtain ⟨e, he, rfl⟩ := List.mem_map.mp hr
  obtain ⟨k, r⟩ := e
  have hnd : (m.map Prod.fst).Nodup :=
    nodup_collectLoop h fuel ps [] m hl (by simp)
  have hg := ResultMap.get_of_mem m hnd k r he
  rw [get_collectLoop_nil h fuel ps m hl k] at hg
  split at hg
  · rename_i ht
    simp only [Option.some.injEq] at hg
    subst hg
    exact (touched_iff h fuel k ps).mp ht
  · simp at hg

theorem validGroups_iff (h : Host) (fuel : Nat) (ps : List Pid) :
    validGroups h fuel ps = true ↔
      ∀ p ∈ ps, ∀ k, groupKey h fuel p = some k →
        ValidString k.name = true ∧ ValidString k.parent = true := by
  unfold validGroups
  rw [List.all_eq_true]
  constructor
  · intro hall p hp k hgk
    have := hall p hp
    rw [hgk] at this
    simpa using this
  · intro hall p hp
    cases hgk : groupKey h fuel p with
    | none => rfl
    | some k =>
      have := hall p hp k hgk
      simp [this.1, this.2]

theorem validLabels_iff_validGroups (h : Host) (fuel : Nat) (ps : List Pid) (m : ResultMap)
    (hl : collectLoop h fuel [] ps = some m) :
    (∀ r ∈ m.map Prod.snd, validLabels r = true) ↔ validGroups h fuel ps = true := by
  rw [validGroups_iff]
  constructor
  · intro hall p hp k hgk
    have ht : touched h fuel k ps = true := (touched_iff h fuel k ps).mpr ⟨p, hp, hgk⟩
    have hg := get_collectLoop_nil h fuel ps m hl k
    simp only [ht, if_true] at hg
    have hv := hall _ (get_inOrder_mem m k _ hg)
    simpa [validLabels] using hv
  · intro hvg r hr
    obtain ⟨p, hp, hgk⟩ := group_of_value h fuel ps m hl r hr
    have := hvg p hp _ hgk
    simp [validLabels, this.1, this.2]

/-- C7 (as amended): when every listed process has a finite ancestor chain, the first
loop of Collect ends with a map and Collect ends. The results ranged over, in whatever
order, contain no two entries with the same (name, parent) pair, and the metrics sent
are metrics of these results, no two of them with the same metric name and label values.
Two fully readable listed processes with the same own name but different findParent
results have two distinct entries among these results, one per ancestor, whose totals are
the sums over the processes counted in that entry, and each of the two processes is
counted in the entry of its own pair and in no other. When the own name and the resolved
ancestor name of every group are valid UTF-8, Collect returns after sending the CPU
metric and the memory metric of every result, those of the two entries included. When
some group has a name that is not valid UTF-8, Collect does not return: it panics at the
first such result in range order, having sent the metrics of the results before it. -/
theorem Collect_distinct_groups (h : Host) (fuel : Nat) (procs : List Pid)
    (rangeOrder : ResultMap → List result) (hprocs : h.Processes = .ok procs)
    (hfin : FiniteChains h fuel procs)
    (hperm : ∀ m, (rangeOrder m).Perm (m.map Prod.snd)) :
    ∃ m out, collectLoop h fuel [] procs = some m ∧
      Collect h fuel rangeOrder = some out ∧
      ((rangeOrder m).map result.toresultKey).Nodup ∧
      (out.sent.map fun x => (x.fqName, x.labelValues)).Nodup ∧
      (∀ x ∈ out.sent, ∃ r ∈ rangeOrder m, x = cpuMetric r ∨ x = memMetric r) ∧
      (validGroups h fuel procs = true →
        out = .returned ((rangeOrder m).flatMap metricsOf)) ∧
      (validGroups h fuel procs = false →
        out = .panicked (((rangeOrder m).takeWhile validLabels).flatMap metricsOf)) ∧
      ∀ p ∈ procs, ∀ q ∈ procs, ∀ n a b,
        groupKey h fuel p = some ⟨n, a⟩ → groupKey h fuel q = some ⟨n, b⟩ → a ≠ b →
        (contribution h p).isSome → (contribution h q).isSome →
        ∃ ra rb, ra ∈ rangeOrder m ∧ rb ∈ rangeOrder m ∧ ra ≠ rb ∧
          ra = ⟨⟨n, a⟩, ((counted h fuel ⟨n, a⟩ procs).map (cpuSeconds h)).sum,
            ((counted h fuel ⟨n, a⟩ procs).map (memoryPercent h)).sum⟩ ∧
          rb = ⟨⟨n, b⟩, ((counted h fuel ⟨n, b⟩ procs).map (cpuSeconds h)).sum,
            ((counted h fuel ⟨n, b⟩ procs).map (memoryPercent h)).sum⟩ ∧
          (∀ k, p ∈ counted h fuel k procs ↔ k = ⟨n, a⟩) ∧
          (∀ k, q ∈ counted h fuel k procs ↔ k = ⟨n, b⟩) ∧
          (validGroups h fuel procs = true →
            (⟨"mac_process_cpu_usage_total", .CounterValue,
              ((counted h fuel ⟨n, a⟩ procs).map (cpuSeconds h)).sum, [n, a]⟩ : Metric)
                ∈ out.sent ∧
            (⟨"mac_process_mem_usage", .GaugeValue,
              ((counted h fuel ⟨n, a⟩ procs).map (memoryPercent h)).sum, [n, a]⟩ : Metric)
                ∈ out.sent ∧
            (⟨"mac_process_cpu_usage_total", .CounterValue,
              ((counted h fuel ⟨n, b⟩ procs).map (cpuSeconds h)).sum, [n, b]⟩ : Metric)
                ∈ out.sent ∧
            (⟨"mac_process_mem_usage", .GaugeValue,
              ((counted h fuel ⟨n, b⟩ procs).map (memoryPercent h)).sum, [n, b]⟩ : Metric)
                ∈ out.sent) := by
  obtain ⟨m, hm⟩ := collectLoop_returns_of_finiteChains h fuel procs hfin []
  have hkeys : ((rangeOrder m).map result.toresultKey).Nodup := by
    rw [((hperm m).map result.toresultKey).nodup_iff, values_keys_collectLoop h fuel procs m hm]
    exact nodup_collectLoop h fuel procs [] m hm (by simp)
  have hsub := sent_emitMetrics_sublist (rangeOrder m)
  have hvalid : (∀ r ∈ rangeOrder m, validLabels r = true) ↔ validGroups h fuel procs = true := by
    rw [← validLabels_iff_validGroups h fuel procs m hm]
    exact ⟨fun hall r hr => hall r ((hperm m).mem_iff.mpr hr),
      fun hall r hr => hall r ((hperm m).mem_iff.mp hr)⟩
  have hret : validGroups h fuel procs = true →
      emitMetrics [] (rangeOrder m) = .returned ((rangeOrder m).flatMap metricsOf) := by
    intro hv
    have hall : (rangeOrder m).all validLabels = true := List.all_eq_true.mpr (hvalid.mpr hv)
    rw [emitMetrics_eq, hall]
    simp
  refine ⟨m, emitMetrics [] (rangeOrder m), hm,
    Collect_of_collectLoop h fuel rangeOrder procs m hprocs hm, hkeys,
    (hsub.map _).nodup (metrics_nodup _ hkeys), ?_, hret, ?_, ?_⟩
  · intro x hx
    obtain ⟨r, hr, hxr⟩ := List.mem_flatMap.mp (hsub.subset hx)
    refine ⟨r, hr, ?_⟩
    simpa [metricsOf] using hxr
  · intro hv
    have hall : ¬ (rangeOrder m).all validLabels = true := by
      intro hall
      have := hvalid.mp (List.all_eq_true.mp hall)
      rw [hv] at this
      cases this
    rw [emitMetrics_eq]
    simp [hall]
  · intro p hp q hq n a b hgp hgq hab hcp hcq
    have hta : touched h fuel ⟨n, a⟩ procs = true := (touched_iff h fuel _ procs).mpr ⟨p, hp, hgp⟩
    have htb : touched h fuel ⟨n, b⟩ procs = true := (touched_iff h fuel _ procs).mpr ⟨q, hq, hgq⟩
    have hga := get_collectLoop_nil h fuel procs m hm ⟨n, a⟩
    have hgb := get_collectLoop_nil h fuel procs m hm ⟨n, b⟩
    simp only [hta, if_true] at hga
    simp only [htb, if_true] at hgb
    have hra := (hperm m).mem_iff.mpr (get_inOrder_mem m _ _ hga)
    have hrb := (hperm m).mem_iff.mpr (get_inOrder_mem m _ _ hgb)
    refine ⟨_, _, hra, hrb, ?_, rfl, rfl, ?_, ?_, ?_⟩
    · intro heq
      have := congrArg (fun r : result => r.parent) heq
      simp only at this
      exact hab this
    · intro k
      simp only [counted, List.mem_filter, hp, true_and, Bool.and_eq_true, decide_eq_true_eq,
        hgp, hcp, and_true, Option.some.injEq]
      exact eq_comm
    · intro k
      simp only [counted, List.mem_filter, hq, true_and, Bool.and_eq_true, decide_eq_true_eq,
        hgq, hcq, and_true, Option.some.injEq]
      exact eq_comm
    · intro hv
      rw [hret hv]
      simp only [Outcome.sent]
      exact ⟨List.mem_flatMap.mpr ⟨_, hra, by simp [metricsOf, cpuMetric]⟩,
        List.mem_flatMap.mpr ⟨_, hra, by simp [metricsOf, memMetric]⟩,
        List.mem_flatMap.mpr ⟨_, hrb, by simp [metricsOf, cpuMetric]⟩,
        List.mem_flatMap.mpr ⟨_, hrb, by simp [metricsOf, memMetric]⟩⟩

theorem Collect_distinct_groups_witness :
    validGroups mixedHost 4 [1, 2, 3, 4, 5, 6, 7, 8, 9] = true ∧
    ∃ m sent, collectLoop mixedHost 4 [] [1, 2, 3, 4, 5, 6, 7, 8, 9] = some m ∧
      Collect mixedHost 4 inReverse = some (.returned sent) ∧
      ((inReverse m).map result.toresultKey).Nodup ∧
      (sent.map fun x => (x.fqName, x.labelValues)).Nodup ∧
      (⟨"mac_process_cpu_usage_total", .CounterValue, 3,
        [goString "node", goString "Terminal"]⟩ : Metric) ∈ sent ∧
      (⟨"mac_process_mem_usage", .GaugeValue, 5,
        [goString "node", goString "Terminal"]⟩ : Metric) ∈ sent ∧
      (⟨"mac_process_cpu_usage_total", .CounterValue, 3,
        [goString "node", goString "iTerm2"]⟩ : Metric) ∈ sent ∧
      (⟨"mac_process_mem_usage", .GaugeValue, 5,
        [goString "node", goString "iTerm2"]⟩ : Metric) ∈ sent := by
  have hv : validGroups mixedHost 4 [1, 2, 3, 4, 5, 6, 7, 8, 9] = true := by decide
  obtain ⟨m, out, hm, hcol, hnd, hsent, _, hret, _, hpair⟩ :=
    Collect_distinct_groups mixedHost 4 [1, 2, 3, 4, 5, 6, 7, 8, 9] inReverse rfl
      finiteChains_mixedHost (fun m => List.reverse_perm _)
  obtain ⟨ra, rb, _, _, _, _, _, _, _, hmetrics⟩ :=
    hpair 4 (by decide) 6 (by decide) (goString "node") (goString "Terminal")
      (goString "iTerm2") (by decide) (by decide) (by decide) (by decide) (by decide)
  have hout := hret hv
  obtain ⟨h1, h2, h3, h4⟩ := hmetrics hv
  have ca : ((counted mixedHost 4 ⟨goString "node", goString "Terminal"⟩
      [1, 2, 3, 4, 5, 6, 7, 8, 9]).map (cpuSeconds mixedHost)).sum = 3 := by decide!
  have ma : ((counted mixedHost 4 ⟨goString "node", goString "Terminal"⟩
      [1, 2, 3, 4, 5, 6, 7, 8, 9]).map (memoryPercent mixedHost)).sum = 5 := by decide!
  have cb : ((counted mixedHost 4 ⟨goString "node", goString "iTerm2"⟩
      [1, 2, 3, 4, 5, 6, 7, 8, 9]).map (cpuSeconds mixedHost)).sum = 3 := by decide!
  have mb : ((counted mixedHost 4 ⟨goString "node", goString "iTerm2"⟩
      [1, 2, 3, 4, 5, 6, 7, 8, 9]).map (memoryPercent mixedHost)).sum = 5 := by decide!
  rw [ca] at h1
  rw [ma] at h2
  rw [cb] at h3
  rw [mb] at h4
  rw [hout] at hcol hsent h1 h2 h3 h4
  exact ⟨hv, m, _, hm, hcol, hnd, hsent, h1, h2, h3, h4⟩

/-- C7 as stated fails: on a table where process 10 is named by the byte 0xFF, which is
not valid UTF-8, the processes 4 and 6 are fully readable, both named node, with the
ancestors Terminal and iTerm2; the map is built, yet ranging over it in insertion order
Collect panics at the first result and sends no metric at all, so what is emitted
contains an entry for neither ancestor. -/
theorem invalid_name_stops_emission :
    rawNameHost.Processes = .ok [10, 4, 6] ∧
    groupKey rawNameHost 4 4 = some ⟨goString "node", goString "Terminal"⟩ ∧
    groupKey rawNameHost 4 6 = some ⟨goString "node", goString "iTerm2"⟩ ∧
    (contribution rawNameHost 4).isSome = true ∧
    (contribution rawNameHost 6).isSome = true ∧
    rawNameHost.Name 10 = .ok [0xFF] ∧
    ValidString [0xFF] = false ∧
    Collect rawNameHost 4 inOrder = some (.panicked []) := by
  refine ⟨rfl, by decide, by decide, by decide, by decide, by decide, by decide, ?_⟩
  decide!

end MacosProcExporter
